import Mathlib

/-!
# Verification of the BST implementation in `src/test-files/sample.c`

Shallow embedding of the C binary search tree: the heap structure of
`struct Node { int data; Node* left; Node* right; }` is embedded as an
inductive tree (a null pointer is `leaf`), and each recursive C function
becomes a structurally recursive Lean function over that tree.
-/

namespace BST

/-- `struct Node { int data; struct Node* left; struct Node* right; }`.
A `Node*` value is a `Tree`: `leaf` is the null pointer, `node l x r` is a
node with `data = x`, `left = l`, `right = r`. -/
inductive Tree where
  | leaf : Tree
  | node : Tree → Int → Tree → Tree
deriving DecidableEq, Repr

open Tree

/-- `createNode(value)`: a fresh node holding `value` with both children null. -/
def createNode (value : Int) : Tree :=
  node leaf value leaf

/-- `insert(root, value)` from `sample.c`: null root becomes a fresh node;
otherwise recurse left on `value < root->data`, right on `value > root->data`,
and return `root` unchanged on equality. -/
def insert : Tree → Int → Tree
  | leaf, value => createNode value
  | node l x r, value =>
      if value < x then node (insert l value) x r
      else if x < value then node l x (insert r value)
      else node l x r

/-- `search(root, value)` from `sample.c`: returns the `Node*` result
(`none` is NULL, `some t` is a pointer to the subtree `t`). -/
def search : Tree → Int → Option Tree
  | leaf, _ => none
  | node l x r, value =>
      if x = value then some (node l x r)
      else if value < x then search l value
      else search r value

/-- `inorderTraversal(root)` from `sample.c`, with the `printf("%d ", ...)`
visit action reified as emitting the value: the list of printed values. -/
def inorderTraversal : Tree → List Int
  | leaf => []
  | node l x r => inorderTraversal l ++ [x] ++ inorderTraversal r

/-- `freeTree(root)` from `sample.c`, with the `free(root)` effect reified as
counting releases: the number of `free` calls performed. -/
def freeTree : Tree → Nat
  | leaf => 0
  | node l _ r => freeTree l + freeTree r + 1

/-- Building a tree by folding `insert` over a list of values, starting from
the null root, as the driver in `main` does. -/
def insertList (values : List Int) : Tree :=
  values.foldl insert leaf

/-- Number of nodes in a tree. -/
def size : Tree → Nat
  | leaf => 0
  | node l _ r => size l + size r + 1

/-- Height of a tree (recursion depth of the C functions on it). -/
def height : Tree → Nat
  | leaf => 0
  | node l _ r => max (height l) (height r) + 1

/-- The data of the node a `search` result points to, if any. -/
def found : Option Tree → Option Int
  | some (node _ x _) => some x
  | _ => none

/-- The BST invariant from the data model: at every node, every value in the
left subtree is strictly below the node value and every value in the right
subtree is strictly above it. -/
def isBST : Tree → Prop
  | leaf => True
  | node l x r =>
      (∀ y ∈ inorderTraversal l, y < x) ∧
      (∀ y ∈ inorderTraversal r, x < y) ∧
      isBST l ∧ isBST r

instance isBSTDecidable : (t : Tree) → Decidable (isBST t)
  | leaf => .isTrue trivial
  | node l x r =>
      haveI := isBSTDecidable l
      haveI := isBSTDecidable r
      inferInstanceAs (Decidable ((∀ y ∈ inorderTraversal l, y < x) ∧
        (∀ y ∈ inorderTraversal r, x < y) ∧ isBST l ∧ isBST r))

/-! ## Fuel-indexed versions of the four operations

Each C function is recursive; to state termination as a theorem rather than
rely on Lean accepting the structural recursion, we give each operation a
fuel-indexed variant that returns `none` when the call-depth budget is
exhausted, and prove that fuel `height t + 1` always suffices and computes
the structural function. -/

/-- `insert` with an explicit call-depth budget. -/
def insertFuel : Nat → Tree → Int → Option Tree
  | 0, _, _ => none
  | _ + 1, leaf, value => some (createNode value)
  | fuel + 1, node l x r, value =>
      if value < x then (insertFuel fuel l value).map (fun l2 => node l2 x r)
      else if x < value then (insertFuel fuel r value).map (fun r2 => node l x r2)
      else some (node l x r)

/-- `search` with an explicit call-depth budget. -/
def searchFuel : Nat → Tree → Int → Option (Option Tree)
  | 0, _, _ => none
  | _ + 1, leaf, _ => some none
  | fuel + 1, node l x r, value =>
      if x = value then some (some (node l x r))
      else if value < x then searchFuel fuel l value
      else searchFuel fuel r value

/-- `inorderTraversal` with an explicit call-depth budget. -/
def inorderFuel : Nat → Tree → Option (List Int)
  | 0, _ => none
  | _ + 1, leaf => some []
  | fuel + 1, node l x r =>
      match inorderFuel fuel l, inorderFuel fuel r with
      | some a, some b => some (a ++ [x] ++ b)
      | _, _ => none

/-- `freeTree` with an explicit call-depth budget. -/
def freeFuel : Nat → Tree → Option Nat
  | 0, _ => none
  | _ + 1, leaf => some 0
  | fuel + 1, node l _ r =>
      match freeFuel fuel l, freeFuel fuel r with
      | some a, some b => some (a + b + 1)
      | _, _ => none

/-! ## Helper lemmas -/

theorem mem_inorder_node (l r : Tree) (x v : Int) :
    v ∈ inorderTraversal (node l x r) ↔
      v ∈ inorderTraversal l ∨ v = x ∨ v ∈ inorderTraversal r := by
  simp [inorderTraversal]

theorem mem_inorder_insert (t : Tree) (w v : Int) :
    v ∈ inorderTraversal (insert t w) ↔ v = w ∨ v ∈ inorderTraversal t := by
  induction t with
  | leaf => simp [insert, createNode, inorderTraversal]
  | node l x r ihl ihr =>
    rcases lt_trichotomy w x with h | h | h
    · simp only [insert, if_pos h, mem_inorder_node, ihl]
      tauto
    · subst h
      simp [insert, mem_inorder_node]
      tauto
    · simp only [insert, if_neg (lt_asymm h), if_pos h, mem_inorder_node, ihr]
      tauto

theorem isBST_insert {t : Tree} (h : isBST t) (w : Int) : isBST (insert t w) := by
  induction t with
  | leaf =>
    exact ⟨by simp [inorderTraversal], by simp [inorderTraversal], trivial, trivial⟩
  | node l x r ihl ihr =>
    obtain ⟨hl, hr, bl, br⟩ := h
    rcases lt_trichotomy w x with hc | hc | hc
    · simp only [insert, if_pos hc]
      refine ⟨?_, hr, ihl bl, br⟩
      intro y hy
      rcases (mem_inorder_insert l w y).1 hy with h2 | h2
      · exact h2 ▸ hc
      · exact hl y h2
    · subst hc
      simp only [insert, lt_irrefl, ite_false, if_neg (lt_irrefl w)]
      exact ⟨hl, hr, bl, br⟩
    · simp only [insert, if_neg (lt_asymm hc), if_pos hc]
      refine ⟨hl, ?_, bl, ihr br⟩
      intro y hy
      rcases (mem_inorder_insert r w y).1 hy with h2 | h2
      · exact h2 ▸ hc
      · exact hr y h2

theorem isBST_insertList_aux (l : List Int) :
    ∀ t : Tree, isBST t → isBST (l.foldl insert t) := by
  induction l with
  | nil => intro t h; exact h
  | cons a as ih =>
    intro t h
    rw [List.foldl_cons]
    exact ih _ (isBST_insert h a)

theorem isBST_insertList (l : List Int) : isBST (insertList l) :=
  isBST_insertList_aux l leaf trivial

theorem mem_inorder_insertList_aux (l : List Int) :
    ∀ (t : Tree) (v : Int),
      v ∈ inorderTraversal (l.foldl insert t) ↔ v ∈ l ∨ v ∈ inorderTraversal t := by
  induction l with
  | nil => simp
  | cons a as ih =>
    intro t v
    rw [List.foldl_cons, ih, mem_inorder_insert]
    simp only [List.mem_cons]
    tauto

theorem mem_inorder_insertList (l : List Int) (v : Int) :
    v ∈ inorderTraversal (insertList l) ↔ v ∈ l := by
  rw [insertList, mem_inorder_insertList_aux]
  simp [inorderTraversal]

theorem pairwise_inorder {t : Tree} (h : isBST t) :
    List.Pairwise (· < ·) (inorderTraversal t) := by
  induction t with
  | leaf => simp [inorderTraversal]
  | node l x r ihl ihr =>
    obtain ⟨hl, hr, bl, br⟩ := h
    simp only [inorderTraversal, List.append_assoc, List.singleton_append]
    rw [List.pairwise_append]
    refine ⟨ihl bl, ?_, ?_⟩
    · rw [List.pairwise_cons]
      exact ⟨hr, ihr br⟩
    · intro a ha b hb
      rcases List.mem_cons.1 hb with rfl | hb
      · exact hl a ha
      · exact lt_trans (hl a ha) (hr b hb)

theorem search_some_shape (t : Tree) (v : Int) :
    ∀ u, search t v = some u → ∃ l2 r2, u = node l2 v r2 := by
  induction t with
  | leaf => intro u hu; simp [search] at hu
  | node l x r ihl ihr =>
    intro u hu
    by_cases hx : x = v
    · subst hx
      simp [search] at hu
      exact ⟨l, r, hu.symm⟩
    · by_cases hvx : v < x
      · rw [search, if_neg hx, if_pos hvx] at hu
        exact ihl u hu
      · rw [search, if_neg hx, if_neg hvx] at hu
        exact ihr u hu

theorem search_eq_none_of_not_mem {t : Tree} {v : Int}
    (hm : v ∉ inorderTraversal t) : search t v = none := by
  induction t with
  | leaf => rfl
  | node l x r ihl ihr =>
    rw [mem_inorder_node] at hm
    push_neg at hm
    obtain ⟨h1, h2, h3⟩ := hm
    rw [search, if_neg (fun hc => h2 hc.symm)]
    by_cases hvx : v < x
    · rw [if_pos hvx]; exact ihl h1
    · rw [if_neg hvx]; exact ihr h3

theorem found_search {t : Tree} (h : isBST t) (v : Int) :
    found (search t v) = if v ∈ inorderTraversal t then some v else none := by
  induction t with
  | leaf => simp [search, found, inorderTraversal]
  | node l x r ihl ihr =>
    obtain ⟨hl, hr, bl, br⟩ := h
    by_cases hx : x = v
    · subst hx
      rw [search, if_pos rfl, if_pos (by rw [mem_inorder_node]; tauto)]
      rfl
    · by_cases hvx : v < x
      · have hnr : v ∉ inorderTraversal r := fun hm => absurd (hr v hm) (lt_asymm hvx)
        rw [search, if_neg hx, if_pos hvx, ihl bl]
        by_cases hm : v ∈ inorderTraversal l
        · rw [if_pos hm, if_pos (by rw [mem_inorder_node]; tauto)]
        · rw [if_neg hm,
            if_neg (by rw [mem_inorder_node]; push_neg
                       exact ⟨hm, Ne.symm hx, hnr⟩)]
      · have hxv : x < v := lt_of_le_of_ne (not_lt.1 hvx) hx
        have hnl : v ∉ inorderTraversal l := fun hm => absurd (hl v hm) (lt_asymm hxv)
        rw [search, if_neg hx, if_neg hvx, ihr br]
        by_cases hm : v ∈ inorderTraversal r
        · rw [if_pos hm, if_pos (by rw [mem_inorder_node]; tauto)]
        · rw [if_neg hm,
            if_neg (by rw [mem_inorder_node]; push_neg
                       exact ⟨hnl, Ne.symm hx, hm⟩)]

theorem insert_eq_of_mem {t : Tree} (h : isBST t) {v : Int}
    (hv : v ∈ inorderTraversal t) : insert t v = t := by
  induction t with
  | leaf => simp [inorderTraversal] at hv
  | node l x r ihl ihr =>
    obtain ⟨hl, hr, bl, br⟩ := h
    rw [mem_inorder_node] at hv
    rcases hv with hv | hv | hv
    · have hc : v < x := hl v hv
      rw [insert, if_pos hc, ihl bl hv]
    · subst hv
      rw [insert, if_neg (lt_irrefl v), if_neg (lt_irrefl v)]
    · have hc : x < v := hr v hv
      rw [insert, if_neg (lt_asymm hc), if_pos hc, ihr br hv]

theorem size_insert (t : Tree) (v : Int) :
    size (insert t v) = size t + (if (search t v).isSome then 0 else 1) := by
  induction t with
  | leaf => simp [insert, createNode, size, search]
  | node l x r ihl ihr =>
    rcases lt_trichotomy v x with hc | hc | hc
    · rw [insert, if_pos hc, search, if_neg (ne_of_gt hc), if_pos hc]
      simp only [size, ihl]
      by_cases hs : (search l v).isSome <;> simp [hs] <;> omega
    · subst hc
      rw [insert, if_neg (lt_irrefl v), if_neg (lt_irrefl v), search, if_pos rfl]
      simp
    · rw [insert, if_neg (lt_asymm hc), if_pos hc, search, if_neg (ne_of_lt hc),
        if_neg (lt_asymm hc)]
      simp only [size, ihr]
      by_cases hs : (search r v).isSome <;> simp [hs] <;> omega

theorem eq_of_sorted_of_mem_iff {l1 l2 : List Int}
    (s1 : List.Pairwise (· < ·) l1) (s2 : List.Pairwise (· < ·) l2)
    (h : ∀ v, v ∈ l1 ↔ v ∈ l2) : l1 = l2 := by
  haveI : IsAntisymm Int (· < ·) := ⟨fun a b h1 h2 => absurd h2 (lt_asymm h1)⟩
  have n1 : l1.Nodup := s1.nodup
  have n2 : l2.Nodup := s2.nodup
  exact List.eq_of_perm_of_sorted ((List.perm_ext_iff_of_nodup n1 n2).2 h) s1 s2

theorem height_lt_of_node {l r : Tree} {x : Int} {m : Nat}
    (h : height (node l x r) < m + 1) : height l < m ∧ height r < m := by
  rw [height] at h
  have hm : max (height l) (height r) < m := Nat.lt_of_succ_lt_succ h
  exact ⟨Nat.lt_of_le_of_lt (Nat.le_max_left _ _) hm,
    Nat.lt_of_le_of_lt (Nat.le_max_right _ _) hm⟩

theorem insertFuel_eq {t : Tree} : ∀ {n : Nat}, height t < n →
    ∀ v, insertFuel n t v = some (insert t v) := by
  induction t with
  | leaf =>
    intro n hn v
    cases n with
    | zero => exact absurd hn (Nat.lt_irrefl 0)
    | succ m => rfl
  | node l x r ihl ihr =>
    intro n hn v
    cases n with
    | zero => exact absurd hn (Nat.not_lt_zero _)
    | succ m =>
      obtain ⟨hl, hr⟩ := height_lt_of_node hn
      rcases lt_trichotomy v x with hc | hc | hc
      · rw [insertFuel, if_pos hc, ihl hl v, insert, if_pos hc]
        rfl
      · subst hc
        rw [insertFuel, if_neg (lt_irrefl v), if_neg (lt_irrefl v),
          insert, if_neg (lt_irrefl v), if_neg (lt_irrefl v)]
      · rw [insertFuel, if_neg (lt_asymm hc), if_pos hc, ihr hr v,
          insert, if_neg (lt_asymm hc), if_pos hc]
        rfl

theorem searchFuel_eq {t : Tree} : ∀ {n : Nat}, height t < n →
    ∀ v, searchFuel n t v = some (search t v) := by
  induction t with
  | leaf =>
    intro n hn v
    cases n with
    | zero => exact absurd hn (Nat.lt_irrefl 0)
    | succ m => rfl
  | node l x r ihl ihr =>
    intro n hn v
    cases n with
    | zero => exact absurd hn (Nat.not_lt_zero _)
    | succ m =>
      obtain ⟨hl, hr⟩ := height_lt_of_node hn
      by_cases hx : x = v
      · rw [searchFuel, if_pos hx, search, if_pos hx]
      · by_cases hvx : v < x
        · rw [searchFuel, if_neg hx, if_pos hvx, search, if_neg hx, if_pos hvx]
          exact ihl hl v
        · rw [searchFuel, if_neg hx, if_neg hvx, search, if_neg hx, if_neg hvx]
          exact ihr hr v

theorem inorderFuel_eq {t : Tree} : ∀ {n : Nat}, height t < n →
    inorderFuel n t = some (inorderTraversal t) := by
  induction t with
  | leaf =>
    intro n hn
    cases n with
    | zero => exact absurd hn (Nat.lt_irrefl 0)
    | succ m => rfl
  | node l x r ihl ihr =>
    intro n hn
    cases n with
    | zero => exact absurd hn (Nat.not_lt_zero _)
    | succ m =>
      obtain ⟨hl, hr⟩ := height_lt_of_node hn
      rw [inorderFuel, ihl hl, ihr hr]
      rfl

theorem freeFuel_eq {t : Tree} : ∀ {n : Nat}, height t < n →
    freeFuel n t = some (freeTree t) := by
  induction t with
  | leaf =>
    intro n hn
    cases n with
    | zero => exact absurd hn (Nat.lt_irrefl 0)
    | succ m => rfl
  | node l x r ihl ihr =>
    intro n hn
    cases n with
    | zero => exact absurd hn (Nat.not_lt_zero _)
    | succ m =>
      obtain ⟨hl, hr⟩ := height_lt_of_node hn
      rw [freeFuel, ihl hl, ihr hr]
      rfl

/-! ## Claim theorems -/

/-- C1: for every finite sequence of values inserted via `insert` starting
from the empty tree, the resulting tree satisfies the BST invariant: at every
node, every value in the left subtree is strictly less than the node's value
and every value in the right subtree is strictly greater. -/
theorem bst_invariant (l : List Int) : isBST (insertList l) :=
  isBST_insertList l

/-- C2: for a tree built by a sequence of inserts from the empty tree,
`search` on an inserted value returns a present node whose value equals the
target, and `search` on a value never inserted returns absent (NULL). -/
theorem search_spec (l : List Int) (v : Int) :
    found (search (insertList l) v) = (if v ∈ l then some v else none) ∧
    (search (insertList l) v = none ↔ v ∉ l) := by
  have hb := isBST_insertList l
  constructor
  · rw [found_search hb v]
    by_cases hm : v ∈ l
    · rw [if_pos ((mem_inorder_insertList l v).2 hm), if_pos hm]
    · rw [if_neg (fun hc => hm ((mem_inorder_insertList l v).1 hc)), if_neg hm]
  · constructor
    · intro hs hm
      have hf := found_search hb v
      rw [hs, if_pos ((mem_inorder_insertList l v).2 hm)] at hf
      exact Option.noConfusion hf
    · intro hm
      exact search_eq_none_of_not_mem (fun hc => hm ((mem_inorder_insertList l v).1 hc))

/-- C3: for a tree built by a sequence of inserts from the empty tree, the
in-order traversal is strictly ascending (hence visits each value exactly
once) and its members are exactly the inserted values (duplicates
collapsed). -/
theorem inorder_sorted_distinct (l : List Int) :
    List.Pairwise (· < ·) (inorderTraversal (insertList l)) ∧
    ∀ v : Int, v ∈ inorderTraversal (insertList l) ↔ v ∈ l :=
  ⟨pairwise_inorder (isBST_insertList l), fun v => mem_inorder_insertList l v⟩

/-- C4: inserting a value already present in a tree (satisfying the data
model's BST invariant) leaves the in-order sequence, and in fact the whole
tree, unchanged; in particular insert is idempotent. -/
theorem insert_duplicate_noop (t : Tree) (v : Int) (h : isBST t)
    (hv : v ∈ inorderTraversal t) :
    inorderTraversal (insert t v) = inorderTraversal t ∧
    insert t v = t ∧
    insert (insert t v) v = insert t v := by
  have he : insert t v = t := insert_eq_of_mem h hv
  exact ⟨by rw [he], he, by rw [he, he]⟩

theorem insert_duplicate_noop_witness :
    inorderTraversal (insert (node leaf 5 leaf) 5) = inorderTraversal (node leaf 5 leaf) ∧
    insert (node leaf 5 leaf) 5 = node leaf 5 leaf ∧
    insert (insert (node leaf 5 leaf) 5) 5 = insert (node leaf 5 leaf) 5 :=
  insert_duplicate_noop (node leaf 5 leaf) 5 (by decide) (by decide)

/-- C5: all four operations terminate on every finite tree: the fuel-indexed
variants, which charge one unit of call depth per recursive call, succeed
with budget `height t + 1` and compute the structural functions. -/
theorem operations_terminate (t : Tree) (v : Int) :
    insertFuel (height t + 1) t v = some (insert t v) ∧
    searchFuel (height t + 1) t v = some (search t v) ∧
    inorderFuel (height t + 1) t = some (inorderTraversal t) ∧
    freeFuel (height t + 1) t = some (freeTree t) :=
  ⟨insertFuel_eq (Nat.lt_succ_self _) v, searchFuel_eq (Nat.lt_succ_self _) v,
   inorderFuel_eq (Nat.lt_succ_self _), freeFuel_eq (Nat.lt_succ_self _)⟩

/-- C6: on the empty tree (NULL root) the in-order traversal prints nothing
and returns immediately, and search for any value returns absent (NULL). -/
theorem empty_tree_spec :
    inorderTraversal leaf = [] ∧ ∀ v : Int, search leaf v = none :=
  ⟨rfl, fun _ => rfl⟩

/-- C7: inserting `[50, 30, 70, 20, 40, 60, 80]` into the empty tree yields a
tree whose in-order traversal prints `20 30 40 50 60 70 80`, on which
`search` for 40 returns a present node holding 40 and `search` for 99
returns absent. -/
theorem demo_scenario :
    inorderTraversal (insertList [50, 30, 70, 20, 40, 60, 80]) =
      [20, 30, 40, 50, 60, 70, 80] ∧
    (search (insertList [50, 30, 70, 20, 40, 60, 80]) 40).isSome = true ∧
    found (search (insertList [50, 30, 70, 20, 40, 60, 80]) 40) = some 40 ∧
    search (insertList [50, 30, 70, 20, 40, 60, 80]) 99 = none := by
  refine ⟨rfl, rfl, rfl, rfl⟩

/-- C8: on a non-empty tree, `insert` returns the same root (same root value,
the tree is never replaced at the top): only the child on the side of the
comparison is updated, the other child is untouched; and a fresh node is
created exactly when the value is absent (the size grows by one exactly when
`search` misses, otherwise the tree is unchanged in size). -/
theorem insert_frame :
    (∀ (l r : Tree) (x v : Int),
        insert (node l x r) v =
          node (if v < x then insert l v else l) x
            (if x < v then insert r v else r)) ∧
    (∀ (t : Tree) (v : Int),
        size (insert t v) = size t + (if (search t v).isSome then 0 else 1)) := by
  constructor
  · intro l r x v
    rcases lt_trichotomy v x with hc | hc | hc
    · rw [insert, if_pos hc, if_pos hc, if_neg (lt_asymm hc)]
    · subst hc
      rw [insert, if_neg (lt_irrefl v), if_neg (lt_irrefl v),
        if_neg (lt_irrefl v), if_neg (lt_irrefl v)]
    · rw [insert, if_neg (lt_asymm hc), if_pos hc, if_neg (lt_asymm hc), if_pos hc]
  · exact size_insert

/-- C10: the observable in-order sequence of a tree built by inserts depends
only on the set of inserted values: two insert sequences with the same
members produce trees with equal in-order traversals. -/
theorem inorder_set_determined (l1 l2 : List Int)
    (h : ∀ v : Int, v ∈ l1 ↔ v ∈ l2) :
    inorderTraversal (insertList l1) = inorderTraversal (insertList l2) := by
  refine eq_of_sorted_of_mem_iff (pairwise_inorder (isBST_insertList l1))
    (pairwise_inorder (isBST_insertList l2)) ?_
  intro v
  rw [mem_inorder_insertList, mem_inorder_insertList]
  exact h v

theorem inorder_set_determined_witness :
    (∀ v : Int, v ∈ ([1, 2] : List Int) ↔ v ∈ ([2, 1] : List Int)) ∧
    inorderTraversal (insertList [1, 2]) = inorderTraversal (insertList [2, 1]) :=
  ⟨fun v => by constructor <;> (intro hv; simp only [List.mem_cons] at hv ⊢; tauto),
   inorder_set_determined [1, 2] [2, 1]
     (fun v => by constructor <;> (intro hv; simp only [List.mem_cons] at hv ⊢; tauto))⟩

end BST
